import Mathlib

/-!
Verification development for the ApeiroPDFAnalyzerBE backend.

We shallowly embed the two pure data-processing components of the
repository:

* `app/gemini_extractor.py`: `transform_gemini_output_to_frontend_format`,
  the schema transformer that turns the model's nested column-oriented
  JSON into a flat list of table records;
* `app/analysis_engine.py`: `build_service_registry`, the
  potential-contradiction selection in `detect_contradictions`, and
  `extract_entities`.

Python dicts are modelled as ordered association lists (insertion order,
distinct keys in any value that a real dict produces).  Python indexing
that can raise `IndexError` (`row[0]`, `row[2]`) is modelled with
`Option`: a `none` result marks a raised exception.  `str.lower` /
`str.strip` are modelled by `pyLower` / `pyStrip` below, which agree
with Python on the ASCII data the claims concern.
-/

/-- A column-oriented table, the value under a sub-heading: an ordered
mapping from column name (header) to the list of cell strings. -/
abbrev ColumnTable := List (String × List String)

/-- A top-level value of the model's JSON: a list of single-key
sub-heading mappings, a direct ("annex") column table, or a plain string
(such as the `document_context` value), which the transformer skips. -/
inductive RawValue : Type where
  | subtopics : List (List (String × ColumnTable)) → RawValue
  | table : ColumnTable → RawValue
  | strVal : String → RawValue
deriving DecidableEq

/-- The extracted JSON object: ordered mapping from heading to value. -/
abbrev RawExtraction := List (String × RawValue)

/-- One flat table in the frontend format. -/
structure TableRecord where
  fund : String
  category : String
  headers : List String
  rows : List (List String)
deriving DecidableEq

/-- Number of rows the transformer emits for a column table:
`len(table_data[headers[0]]) if headers else 0`; with distinct keys the
lookup of the first header returns the first column. -/
def numRows (t : ColumnTable) : Nat :=
  match t with
  | [] => 0
  | (_, col) :: _ => col.length

/-- Row `i` of the transposed table:
`[table_data[header][i] if i < len(table_data[header]) else "" for header in headers]`. -/
def buildRow (t : ColumnTable) (i : Nat) : List String :=
  t.map (fun p => if i < p.2.length then p.2.getD i "" else "")

/-- `rows = [buildRow i for i in range(num_rows)]`. -/
def buildRows (t : ColumnTable) : List (List String) :=
  (List.range (numRows t)).map (buildRow t)

/-- The records contributed by one top-level `(key, value)` item of the
loop body in `transform_gemini_output_to_frontend_format`. -/
def transformEntry : String × RawValue → List TableRecord
  | (key, .subtopics subs) =>
      subs.flatMap (fun subtopic_dict =>
        subtopic_dict.map (fun p =>
          { fund := key, category := p.1,
            headers := p.2.map Prod.fst, rows := buildRows p.2 }))
  | (key, .table td) =>
      [{ fund := key, category := key,
         headers := td.map Prod.fst, rows := buildRows td }]
  | (_, .strVal _) => []

/-- The value returned by the transformer: the pass-through
`document_context` value and the flat table list. -/
structure FrontendData where
  document_context : RawValue
  tables : List TableRecord

/-- `transform_gemini_output_to_frontend_format` from
`app/gemini_extractor.py`. -/
def transform_gemini_output_to_frontend_format (gemini_data : RawExtraction) :
    FrontendData :=
  { document_context :=
      ((gemini_data.find? (fun p => p.1 == "document_context")).map Prod.snd).getD
        (.strVal "")
    tables := gemini_data.flatMap transformEntry }

/-- One grouped occurrence of a service, as appended by
`build_service_registry` in `app/analysis_engine.py`. -/
structure ServiceInstance where
  fund : String
  category : String
  tariff : Option String
  access_rules : Option String
  row_data : List String
deriving DecidableEq

/-- The service registry: a Python dict from normalized service name to
the list of instances, in key-insertion order. -/
abbrev Registry := List (String × List ServiceInstance)

/-- ASCII lower-casing of one character, as Python `str.lower` does on
the ASCII range (`Char.toLower` restated over the char list so that it
reduces structurally). -/
def pyLower (s : String) : String := String.mk (s.toList.map Char.toLower)

/-- The characters Python `str.strip()` removes (ASCII whitespace). -/
def pyWS (c : Char) : Bool :=
  c == ' ' || c == '\t' || c == '\n' || c == '\r' || c == '\x0b' || c == '\x0c'

/-- Python `str.strip()`: drop leading and trailing whitespace. -/
def pyStrip (s : String) : String :=
  String.mk (((s.toList.dropWhile pyWS).reverse.dropWhile pyWS).reverse)

/-- `row[0].lower().strip()`. -/
def normalizeServiceName (s : String) : String := pyStrip (pyLower s)

/-- The normalization key of a row (its first column, lower-cased and
trimmed); only meaningful for non-empty rows. -/
def serviceKey (row : List String) : String :=
  normalizeServiceName (row.headD "")

/-- The instance dict appended for one row: `row[2] if len(row) > 2 else None`
is exactly `row[2]?`, likewise for `row[3]`. -/
def mkServiceInstance (fund category : String) (row : List String) :
    ServiceInstance :=
  { fund := fund, category := category,
    tariff := row[2]?,
    access_rules := row[3]?,
    row_data := row }

/-- `if name not in registry: registry[name] = []` followed by
`registry[name].append(inst)`: append to the entry with the key if it
exists, otherwise add a new key at the end (dict insertion order). -/
def registryInsert : Registry → String → ServiceInstance → Registry
  | [], key, inst => [(key, [inst])]
  | (k, l) :: rest, key, inst =>
      if k == key then (k, l ++ [inst]) :: rest
      else (k, l) :: registryInsert rest key inst

/-- Body of the inner loop of `build_service_registry` for one row;
`row[0]` raises `IndexError` on an empty row, modelled as `none`. -/
def processRow (fund category : String) (reg : Registry)
    (row : List String) : Option Registry :=
  match row with
  | [] => none
  | s0 :: _ =>
      some (registryInsert reg (normalizeServiceName s0)
        (mkServiceInstance fund category row))

/-- The inner loop of `build_service_registry` over one table's rows. -/
def processRows (fund category : String) :
    Registry → List (List String) → Option Registry
  | reg, [] => some reg
  | reg, row :: rest =>
      match processRow fund category reg row with
      | none => none
      | some reg' => processRows fund category reg' rest

/-- The outer loop of `build_service_registry` over the tables. -/
def processTables : Registry → List TableRecord → Option Registry
  | reg, [] => some reg
  | reg, t :: ts =>
      match processRows t.fund t.category reg t.rows with
      | none => none
      | some reg' => processTables reg' ts

/-- `build_service_registry` from `app/analysis_engine.py`; `none` marks
a raised `IndexError`. -/
def build_service_registry (tables_data : List TableRecord) :
    Option Registry :=
  processTables [] tables_data

/-- First-match lookup in the registry (`registry[name]`). -/
def regFind : Registry → String → Option (List ServiceInstance)
  | [], _ => none
  | (k, l) :: rest, key => if k == key then some l else regFind rest key

/-- The instance list stored under a key, `[]` when the key is absent. -/
def regGet (reg : Registry) (key : String) : List ServiceInstance :=
  (regFind reg key).getD []

/-- The candidate-selection dict comprehension in `detect_contradictions`:
`{s: insts for s, insts in registry.items() if len(insts) > 1}`. -/
def potential_contradictions (reg : Registry) : Registry :=
  reg.filter (fun p => decide (1 < p.2.length))

/-- Character-list version of Python `startswith`. -/
def pyStartsWith : List Char → List Char → Bool
  | [], _ => true
  | _ :: _, [] => false
  | a :: as, b :: bs => a == b && pyStartsWith as bs

/-- Auxiliary scan for substring containment. -/
def pySubstrAux (pat : List Char) : List Char → Bool
  | [] => pat.isEmpty
  | b :: bs => pyStartsWith pat (b :: bs) || pySubstrAux pat bs

/-- Python `pat in s` substring containment. -/
def pyIn (pat s : String) : Bool := pySubstrAux pat.toList s.toList

/-- The three accumulating lists of `extract_entities`. -/
structure ExtractedEntities where
  conditions : List String
  services : List String
  undefined_terms : List String
deriving DecidableEq

/-- Body of the row loop of `extract_entities`.  `row[0]` raises on an
empty row; when `"basic radiological examinations"` occurs in the
lower-cased first column, `row[2]` is evaluated and raises if the row
has fewer than 3 columns (`not row[2]` is the emptiness test on the
cell string). -/
def entityScanRow (acc : ExtractedEntities) (row : List String) :
    Option ExtractedEntities :=
  match row with
  | [] => none
  | s0 :: _ =>
      let scope_text := pyLower s0
      let acc1 := if pyIn "cancer" scope_text then
          { acc with conditions := acc.conditions ++ ["cancer"] } else acc
      let acc2 := if pyIn "dialysis" scope_text then
          { acc1 with services := acc1.services ++ ["dialysis"] } else acc1
      if pyIn "basic radiological examinations" scope_text then
        match row[2]? with
        | none => none
        | some c2 =>
            if c2 == "" then
              some { acc2 with undefined_terms :=
                       acc2.undefined_terms ++ ["basic radiological examinations"] }
            else some acc2
      else some acc2

/-- The row loop of `extract_entities` over one table. -/
def entityScanRows (acc : ExtractedEntities) :
    List (List String) → Option ExtractedEntities
  | [] => some acc
  | row :: rest =>
      match entityScanRow acc row with
      | none => none
      | some acc' => entityScanRows acc' rest

/-- The table loop of `extract_entities`. -/
def entityScanTables (acc : ExtractedEntities) :
    List TableRecord → Option ExtractedEntities
  | [] => some acc
  | t :: ts =>
      match entityScanRows acc t.rows with
      | none => none
      | some acc' => entityScanTables acc' ts

/-- `extract_entities` from `app/analysis_engine.py`.  The final
`list(set(...))` deduplication is modelled by `List.eraseDups` (Python's
set iteration order is unspecified; no claim depends on that order).
`none` marks a raised `IndexError`. -/
def extract_entities (tables_data : List TableRecord) :
    Option ExtractedEntities :=
  (entityScanTables ⟨[], [], []⟩ tables_data).map
    (fun e => ⟨e.conditions.eraseDups, e.services.eraseDups,
               e.undefined_terms.eraseDups⟩)

/-- Claim C1: the input `{"A": [{"B": {"Scope": ["x","y"], "Tariff": ["1","2"]}}]}`
produces exactly one TableRecord with fund `A`, category `B`, headers
`[Scope, Tariff]` and rows `[[x,1],[y,2]]`. -/
theorem C1_example_transform :
    (transform_gemini_output_to_frontend_format
        [("A", .subtopics [[("B", [("Scope", ["x", "y"]), ("Tariff", ["1", "2"])])]])]).tables
      = [{ fund := "A", category := "B", headers := ["Scope", "Tariff"],
           rows := [["x", "1"], ["y", "2"]] }] := by
  rfl

theorem buildRow_length (t : ColumnTable) (i : Nat) :
    (buildRow t i).length = t.length := by
  simp [buildRow]

theorem buildRows_length (t : ColumnTable) :
    (buildRows t).length = numRows t := by
  simp [buildRows]

theorem length_of_mem_buildRows {t : ColumnTable} {row : List String}
    (h : row ∈ buildRows t) : row.length = t.length := by
  simp only [buildRows, List.mem_map] at h
  obtain ⟨i, _, rfl⟩ := h
  exact buildRow_length t i

/-- Claim C2: every row of every emitted record has length equal to the
record's header count, and when all columns of a (non-empty) column
table have one common length `L` the transposed table has exactly `L`
rows, each as long as the header list. -/
theorem C2_row_length_invariant :
    (∀ d : RawExtraction,
        ∀ rec ∈ (transform_gemini_output_to_frontend_format d).tables,
          ∀ row ∈ rec.rows, row.length = rec.headers.length) ∧
    (∀ (t : ColumnTable) (L : Nat), t ≠ [] → (∀ p ∈ t, p.2.length = L) →
        (buildRows t).length = L ∧
          ∀ row ∈ buildRows t, row.length = t.length) := by
  constructor
  · intro d rec hrec row hrow
    simp only [transform_gemini_output_to_frontend_format, List.mem_flatMap] at hrec
    obtain ⟨⟨key, v⟩, hentry, hrec⟩ := hrec
    cases v with
    | subtopics subs =>
        simp only [transformEntry, List.mem_flatMap, List.mem_map] at hrec
        obtain ⟨sub, hsub, p, hp, rfl⟩ := hrec
        rw [length_of_mem_buildRows hrow]
        simp
    | table td =>
        simp only [transformEntry, List.mem_singleton] at hrec
        subst hrec
        rw [length_of_mem_buildRows hrow]
        simp
    | strVal s => simp [transformEntry] at hrec
  · intro t L ht hL
    refine ⟨?_, fun row hrow => length_of_mem_buildRows hrow⟩
    rw [buildRows_length]
    match t, ht with
    | (k, col) :: rest, _ =>
      simpa [numRows] using hL (k, col) (List.mem_cons_self _ _)

/-- Witness for C2 at a concrete two-column, two-row table. -/
theorem C2_row_length_invariant_witness :
    (buildRows [("Scope", ["x", "y"]), ("Tariff", ["1", "2"])]).length = 2 ∧
    (["x", "1"] : List String).length
      = ([("Scope", ["x", "y"]), ("Tariff", ["1", "2"])] : ColumnTable).length :=
  ⟨(C2_row_length_invariant.2 [("Scope", ["x", "y"]), ("Tariff", ["1", "2"])] 2
      (by decide) (by decide)).1,
   (C2_row_length_invariant.2 [("Scope", ["x", "y"]), ("Tariff", ["1", "2"])] 2
      (by decide) (by decide)).2 ["x", "1"] (by decide)⟩

/-- Claim C3: ragged columns do not raise (`buildRows` is total and the
transformer always yields a record list); the row count equals the first
header's column length, and a cell whose source column has run out is
the empty string. -/
theorem C3_ragged_columns (t : ColumnTable) (ht : t ≠ []) :
    (buildRows t).length = (t.headD ("", [])).2.length ∧
    ∀ i j, i < numRows t → j < t.length →
      (t.getD j ("", [])).2.length ≤ i →
      ((buildRows t).getD i []).getD j "" = "" := by
  constructor
  · rw [buildRows_length]
    match t, ht with
    | (k, col) :: rest, _ => rfl
  · intro i j hi hj hshort
    have hp : t[j]? = some t[j] := List.getElem?_eq_getElem hj
    have hgd : t.getD j ("", []) = t[j] := List.getD_eq_getElem _ _ hj
    have hcell : (buildRow t i)[j]? = some "" := by
      rw [buildRow, List.getElem?_map, hp]
      have hnot : ¬ i < t[j].2.length := not_lt.mpr (hgd ▸ hshort)
      simp [hnot]
    have hrowi : (buildRows t)[i]? = some (buildRow t i) := by
      rw [buildRows, List.getElem?_map, List.getElem?_range hi]
      rfl
    have h1 : (buildRows t).getD i [] = buildRow t i := by
      rw [List.getD_eq_getElem?_getD, hrowi, Option.getD_some]
    rw [h1, List.getD_eq_getElem?_getD, hcell, Option.getD_some]

/-- Witness for C3 at a ragged table whose second column is short. -/
theorem C3_ragged_columns_witness :
    (buildRows [("Scope", ["x", "y"]), ("Tariff", ["1"])]).length = 2 ∧
    ((buildRows [("Scope", ["x", "y"]), ("Tariff", ["1"])]).getD 1 []).getD 1 ""
      = "" :=
  ⟨(C3_ragged_columns [("Scope", ["x", "y"]), ("Tariff", ["1"])] (by decide)).1,
   (C3_ragged_columns [("Scope", ["x", "y"]), ("Tariff", ["1"])] (by decide)).2
     1 1 (by decide) (by decide) (by decide)⟩

/-- Claim C4: a direct-mapping (annex) top-level value contributes
exactly one record, whose fund and category both equal the key; the
transformer is the concatenation of these per-entry contributions. -/
theorem C4_annex_single_record (key : String) (td : ColumnTable) :
    (∀ d : RawExtraction,
        (transform_gemini_output_to_frontend_format d).tables
          = d.flatMap transformEntry) ∧
    transformEntry (key, .table td)
      = [{ fund := key, category := key, headers := td.map Prod.fst,
           rows := buildRows td }] ∧
    (transformEntry (key, .table td)).length = 1 ∧
    (∀ rec ∈ transformEntry (key, .table td),
        rec.fund = key ∧ rec.category = key) := by
  refine ⟨fun d => rfl, rfl, rfl, ?_⟩
  intro rec hrec
  simp only [transformEntry, List.mem_singleton] at hrec
  subst hrec
  exact ⟨rfl, rfl⟩

/-- Witness for C4 at a concrete annex table. -/
theorem C4_annex_single_record_witness :
    (transformEntry ("ANNEX", .table [("Specialty", ["s1"])])).length = 1 ∧
    ({ fund := "ANNEX", category := "ANNEX", headers := ["Specialty"],
       rows := [["s1"]] } : TableRecord).fund = "ANNEX" :=
  ⟨(C4_annex_single_record "ANNEX" [("Specialty", ["s1"])]).2.2.1,
   ((C4_annex_single_record "ANNEX" [("Specialty", ["s1"])]).2.2.2
      { fund := "ANNEX", category := "ANNEX", headers := ["Specialty"],
        rows := [["s1"]] } (by decide)).1⟩

/-- Claim C5: an empty extraction yields an empty record list, and a
table with zero headers yields a record with zero rows that is still
emitted, in both the sub-heading and the annex case. -/
theorem C5_empty_cases :
    (transform_gemini_output_to_frontend_format []).tables = [] ∧
    (∀ key : String, transformEntry (key, .table [])
        = [{ fund := key, category := key, headers := [], rows := [] }]) ∧
    (∀ fund cat : String, transformEntry (fund, .subtopics [[(cat, [])]])
        = [{ fund := fund, category := cat, headers := [], rows := [] }]) :=
  ⟨rfl, fun _ => rfl, fun _ _ => rfl⟩

theorem regGet_insert_self (key : String) (inst : ServiceInstance) :
    ∀ reg : Registry,
      regGet (registryInsert reg key inst) key = regGet reg key ++ [inst] := by
  intro reg
  induction reg with
  | nil => simp [registryInsert, regGet, regFind]
  | cons hd rest ih =>
      obtain ⟨k, l⟩ := hd
      by_cases h : k = key
      · subst h; simp [registryInsert, regGet, regFind]
      · simpa [registryInsert, regGet, regFind, h] using ih

theorem regGet_insert_other (ikey lkey : String) (inst : ServiceInstance)
    (hne : lkey ≠ ikey) :
    ∀ reg : Registry,
      regGet (registryInsert reg ikey inst) lkey = regGet reg lkey := by
  intro reg
  induction reg with
  | nil => simp [registryInsert, regGet, regFind, Ne.symm hne]
  | cons hd rest ih =>
      obtain ⟨k, l⟩ := hd
      by_cases hki : k = ikey
      · subst hki
        simp [registryInsert, regGet, regFind, Ne.symm hne]
      · by_cases hkl : k = lkey
        · subst hkl; simp [registryInsert, regGet, regFind, hki]
        · simpa [registryInsert, regGet, regFind, hki, hkl] using ih

theorem mem_regGet_insert (reg : Registry) (key ikey : String)
    (inst inst' : ServiceInstance) (h : inst ∈ regGet reg key) :
    inst ∈ regGet (registryInsert reg ikey inst') key := by
  by_cases hk : key = ikey
  · subst hk
    rw [regGet_insert_self]
    exact List.mem_append_left _ h
  · rw [regGet_insert_other ikey key inst' hk]
    exact h

theorem processRows_mono (f c : String) :
    ∀ (rows : List (List String)) (reg reg' : Registry),
      processRows f c reg rows = some reg' →
      ∀ (key : String) (inst : ServiceInstance),
        inst ∈ regGet reg key → inst ∈ regGet reg' key := by
  intro rows
  induction rows with
  | nil =>
      intro reg reg' h key inst hm
      simp only [processRows, Option.some.injEq] at h
      subst h; exact hm
  | cons r rest ih =>
      intro reg reg' h key inst hm
      cases r with
      | nil => simp [processRows, processRow] at h
      | cons s0 tl =>
          simp only [processRows, processRow] at h
          exact ih _ _ h key inst (mem_regGet_insert _ _ _ _ _ hm)

theorem processRows_mem (f c : String) :
    ∀ (rows : List (List String)) (reg reg' : Registry),
      processRows f c reg rows = some reg' →
      ∀ row ∈ rows, mkServiceInstance f c row ∈ regGet reg' (serviceKey row) := by
  intro rows
  induction rows with
  | nil => intro reg reg' h row hrow; simp at hrow
  | cons r rest ih =>
      intro reg reg' h row hrow
      cases r with
      | nil => simp [processRows, processRow] at h
      | cons s0 tl =>
          simp only [processRows, processRow] at h
          rcases List.mem_cons.mp hrow with hr | hr
          · subst hr
            refine processRows_mono f c rest _ _ h (serviceKey (s0 :: tl)) _ ?_
            show mkServiceInstance f c (s0 :: tl)
              ∈ regGet (registryInsert reg (normalizeServiceName s0)
                  (mkServiceInstance f c (s0 :: tl))) (normalizeServiceName s0)
            rw [regGet_insert_self]
            exact List.mem_append_right _ (List.mem_singleton_self _)
          · exact ih _ _ h row hr

theorem processTables_mono :
    ∀ (ts : List TableRecord) (reg reg' : Registry),
      processTables reg ts = some reg' →
      ∀ (key : String) (inst : ServiceInstance),
        inst ∈ regGet reg key → inst ∈ regGet reg' key := by
  intro ts
  induction ts with
  | nil =>
      intro reg reg' h key inst hm
      simp only [processTables, Option.some.injEq] at h
      subst h; exact hm
  | cons t rest ih =>
      intro reg reg' h key inst hm
      cases hpr : processRows t.fund t.category reg t.rows with
      | none => simp only [processTables, hpr] at h; exact Option.noConfusion h
      | some reg1 =>
          simp only [processTables, hpr] at h
          exact ih _ _ h key inst (processRows_mono _ _ _ _ _ hpr key inst hm)

theorem processTables_mem :
    ∀ (ts : List TableRecord) (reg reg' : Registry),
      processTables reg ts = some reg' →
      ∀ t ∈ ts, ∀ row ∈ t.rows,
        mkServiceInstance t.fund t.category row ∈ regGet reg' (serviceKey row) := by
  intro ts
  induction ts with
  | nil => intro reg reg' h t ht; simp at ht
  | cons t0 rest ih =>
      intro reg reg' h t ht row hrow
      cases hpr : processRows t0.fund t0.category reg t0.rows with
      | none => simp only [processTables, hpr] at h; exact Option.noConfusion h
      | some reg1 =>
          simp only [processTables, hpr] at h
          rcases List.mem_cons.mp ht with ht0 | ht0
          · subst ht0
            exact processTables_mono rest _ _ h _ _
              (processRows_mem t.fund t.category t.rows _ _ hpr row hrow)
          · exact ih _ _ h t ht0 row hrow

/-- Claim C6: grouping is case- and trim-insensitive.  Two rows whose
first columns normalize (lower-case, strip) to the same key land in one
and the same registry entry, the one looked up by that normalized key. -/
theorem C6_grouping_normalized (tables : List TableRecord) (reg : Registry)
    (h : build_service_registry tables = some reg)
    (t1 t2 : TableRecord) (r1 r2 : List String)
    (ht1 : t1 ∈ tables) (hr1 : r1 ∈ t1.rows)
    (ht2 : t2 ∈ tables) (hr2 : r2 ∈ t2.rows)
    (hkey : serviceKey r1 = serviceKey r2) :
    mkServiceInstance t1.fund t1.category r1 ∈ regGet reg (serviceKey r1) ∧
    mkServiceInstance t2.fund t2.category r2 ∈ regGet reg (serviceKey r1) := by
  constructor
  · exact processTables_mem tables [] reg h t1 ht1 r1 hr1
  · rw [hkey]
    exact processTables_mem tables [] reg h t2 ht2 r2 hr2

/-- Witness for C6: `"Dialysis "` and `"dialysis"` collapse to the one
registry key `"dialysis"`. -/
theorem C6_grouping_normalized_witness :
    mkServiceInstance "F1" "C1" ["Dialysis "]
        ∈ regGet [("dialysis",
            [mkServiceInstance "F1" "C1" ["Dialysis "],
             mkServiceInstance "F2" "C2" ["dialysis"]])]
          (serviceKey ["Dialysis "]) ∧
    mkServiceInstance "F2" "C2" ["dialysis"]
        ∈ regGet [("dialysis",
            [mkServiceInstance "F1" "C1" ["Dialysis "],
             mkServiceInstance "F2" "C2" ["dialysis"]])]
          (serviceKey ["Dialysis "]) :=
  C6_grouping_normalized
    [{ fund := "F1", category := "C1", headers := ["Scope"],
       rows := [["Dialysis "]] },
     { fund := "F2", category := "C2", headers := ["Scope"],
       rows := [["dialysis"]] }]
    [("dialysis",
      [mkServiceInstance "F1" "C1" ["Dialysis "],
       mkServiceInstance "F2" "C2" ["dialysis"]])]
    (by decide)
    { fund := "F1", category := "C1", headers := ["Scope"],
      rows := [["Dialysis "]] }
    { fund := "F2", category := "C2", headers := ["Scope"],
      rows := [["dialysis"]] }
    ["Dialysis "] ["dialysis"]
    (by decide) (by decide) (by decide) (by decide) (by decide)

/-- Claim C7: a registry entry is a potential-contradiction candidate
exactly when it holds more than one instance; a single-instance entry is
never selected. -/
theorem C7_candidate_iff_multiple (tables : List TableRecord) (reg : Registry)
    (_h : build_service_registry tables = some reg)
    (key : String) (insts : List ServiceInstance)
    (hm : (key, insts) ∈ reg) :
    (key, insts) ∈ potential_contradictions reg ↔ 1 < insts.length := by
  simp [potential_contradictions, List.mem_filter, hm]

/-- Witness for C7: a service with one instance is not selected. -/
theorem C7_candidate_iff_multiple_witness :
    ("dialysis", [mkServiceInstance "F1" "C1" ["dialysis"]])
      ∉ potential_contradictions
          [("dialysis", [mkServiceInstance "F1" "C1" ["dialysis"]])] :=
  fun hmem =>
    absurd
      ((C7_candidate_iff_multiple
          [{ fund := "F1", category := "C1", headers := ["Scope"],
             rows := [["dialysis"]] }]
          [("dialysis", [mkServiceInstance "F1" "C1" ["dialysis"]])]
          (by decide) "dialysis" [mkServiceInstance "F1" "C1" ["dialysis"]]
          (by decide)).mp hmem)
      (by decide)

theorem processRows_isSome (f c : String) :
    ∀ (rows : List (List String)) (reg : Registry),
      (∀ row ∈ rows, row ≠ []) → (processRows f c reg rows).isSome = true := by
  intro rows
  induction rows with
  | nil => intro reg _; rfl
  | cons r rest ih =>
      intro reg h
      cases r with
      | nil => exact absurd rfl (h [] (List.mem_cons_self _ _))
      | cons s0 tl =>
          simp only [processRows, processRow]
          exact ih _ (fun row hr => h row (List.mem_cons_of_mem _ hr))

theorem processTables_isSome :
    ∀ (ts : List TableRecord) (reg : Registry),
      (∀ t ∈ ts, ∀ row ∈ t.rows, row ≠ []) →
      (processTables reg ts).isSome = true := by
  intro ts
  induction ts with
  | nil => intro reg _; rfl
  | cons t rest ih =>
      intro reg h
      have h1 := processRows_isSome t.fund t.category t.rows reg
        (h t (List.mem_cons_self _ _))
      cases hpr : processRows t.fund t.category reg t.rows with
      | none => rw [hpr] at h1; simp at h1
      | some reg1 =>
          simp only [processTables, hpr]
          exact ih _ (fun t' ht' => h t' (List.mem_cons_of_mem _ ht'))

/-- Claim C8: with every row non-empty, `build_service_registry` raises
no error, and short rows degrade: fewer than 3 columns gives a null
tariff, fewer than 4 a null access-rules field. -/
theorem C8_registry_graceful (tables : List TableRecord)
    (h : ∀ t ∈ tables, ∀ row ∈ t.rows, row ≠ []) :
    (build_service_registry tables).isSome = true ∧
    (∀ (fund cat : String) (row : List String), row.length < 3 →
        (mkServiceInstance fund cat row).tariff = none) ∧
    (∀ (fund cat : String) (row : List String), row.length < 4 →
        (mkServiceInstance fund cat row).access_rules = none) := by
  refine ⟨processTables_isSome tables [] h, ?_, ?_⟩
  · intro fund cat row hlen
    show row[2]? = none
    exact List.getElem?_eq_none (by omega)
  · intro fund cat row hlen
    show row[3]? = none
    exact List.getElem?_eq_none (by omega)

/-- Witness for C8 at a one-column row. -/
theorem C8_registry_graceful_witness :
    (build_service_registry
        [{ fund := "F", category := "C", headers := ["Scope"],
           rows := [["a"]] }]).isSome = true ∧
    (mkServiceInstance "F" "C" ["a"]).tariff = none ∧
    (mkServiceInstance "F" "C" ["a"]).access_rules = none :=
  ⟨(C8_registry_graceful
      [{ fund := "F", category := "C", headers := ["Scope"],
         rows := [["a"]] }] (by decide)).1,
   (C8_registry_graceful
      [{ fund := "F", category := "C", headers := ["Scope"],
         rows := [["a"]] }] (by decide)).2.1 "F" "C" ["a"] (by decide),
   (C8_registry_graceful
      [{ fund := "F", category := "C", headers := ["Scope"],
         rows := [["a"]] }] (by decide)).2.2 "F" "C" ["a"] (by decide)⟩

theorem entityScanRow_isSome (acc : ExtractedEntities) (row : List String)
    (hne : row ≠ [])
    (hguard : pyIn "basic radiological examinations" (pyLower (row.headD "")) = true →
      2 < row.length) :
    (entityScanRow acc row).isSome = true := by
  cases row with
  | nil => exact absurd rfl hne
  | cons s0 tl =>
      cases hg : pyIn "basic radiological examinations" (pyLower s0) with
      | false => simp [entityScanRow, hg]
      | true =>
          have hlen : 2 < (s0 :: tl).length := hguard hg
          obtain ⟨c2, hc2⟩ : ∃ c2, (s0 :: tl)[2]? = some c2 :=
            ⟨_, List.getElem?_eq_getElem hlen⟩
          cases hcc : c2 == "" with
          | true => simp [entityScanRow, hg, hc2, hcc]
          | false => simp [entityScanRow, hg, hc2, hcc]

theorem entityScanRows_isSome :
    ∀ (rows : List (List String)) (acc : ExtractedEntities),
      (∀ row ∈ rows, row ≠ []) →
      (∀ row ∈ rows,
        pyIn "basic radiological examinations" (pyLower (row.headD "")) = true →
          2 < row.length) →
      (entityScanRows acc rows).isSome = true := by
  intro rows
  induction rows with
  | nil => intro acc _ _; rfl
  | cons r rest ih =>
      intro acc h1 h2
      have hr := entityScanRow_isSome acc r (h1 r (List.mem_cons_self _ _))
        (h2 r (List.mem_cons_self _ _))
      cases hscan : entityScanRow acc r with
      | none => rw [hscan] at hr; simp at hr
      | some acc' =>
          simp only [entityScanRows, hscan]
          exact ih acc' (fun row hrow => h1 row (List.mem_cons_of_mem _ hrow))
            (fun row hrow => h2 row (List.mem_cons_of_mem _ hrow))

theorem entityScanTables_isSome :
    ∀ (ts : List TableRecord) (acc : ExtractedEntities),
      (∀ t ∈ ts, ∀ row ∈ t.rows, row ≠ []) →
      (∀ t ∈ ts, ∀ row ∈ t.rows,
        pyIn "basic radiological examinations" (pyLower (row.headD "")) = true →
          2 < row.length) →
      (entityScanTables acc ts).isSome = true := by
  intro ts
  induction ts with
  | nil => intro acc _ _; rfl
  | cons t rest ih =>
      intro acc h1 h2
      have hr := entityScanRows_isSome t.rows acc (h1 t (List.mem_cons_self _ _))
        (h2 t (List.mem_cons_self _ _))
      cases hscan : entityScanRows acc t.rows with
      | none => rw [hscan] at hr; simp at hr
      | some acc' =>
          simp only [entityScanTables, hscan]
          exact ih acc' (fun t' ht' => h1 t' (List.mem_cons_of_mem _ ht'))
            (fun t' ht' => h2 t' (List.mem_cons_of_mem _ ht'))

/-- Claim C9: `extract_entities` is not total: a row whose first column
contains `"basic radiological examinations"` but has fewer than 3
columns makes the unguarded `row[2]` raise an out-of-bounds error
(modelled `none`); when every row is non-empty and every row containing
that substring has at least 3 columns, it does not raise. -/
theorem C9_extract_entities_partiality :
    extract_entities
        [{ fund := "F", category := "C", headers := ["Scope"],
           rows := [["basic radiological examinations"]] }] = none ∧
    (∀ tables : List TableRecord,
      (∀ t ∈ tables, ∀ row ∈ t.rows, row ≠ []) →
      (∀ t ∈ tables, ∀ row ∈ t.rows,
        pyIn "basic radiological examinations" (pyLower (row.headD "")) = true →
          2 < row.length) →
      (extract_entities tables).isSome = true) := by
  constructor
  · rfl
  · intro tables h1 h2
    have h3 := entityScanTables_isSome tables ⟨[], [], []⟩ h1 h2
    cases hscan : entityScanTables ⟨[], [], []⟩ tables with
    | none => rw [hscan] at h3; simp at h3
    | some e => simp [extract_entities, hscan]

/-- Witness for C9: with the guarded row long enough, no error. -/
theorem C9_extract_entities_partiality_witness :
    (extract_entities
        [{ fund := "F", category := "C", headers := ["Scope"],
           rows := [["basic radiological examinations", "ap", "100"]] }]).isSome
      = true :=
  C9_extract_entities_partiality.2
    [{ fund := "F", category := "C", headers := ["Scope"],
       rows := [["basic radiological examinations", "ap", "100"]] }]
    (by decide) (by decide)

theorem registryInsert_size (key : String) (inst : ServiceInstance) :
    ∀ reg : Registry,
      ((registryInsert reg key inst).map (fun p => p.2.length)).sum
        = (reg.map (fun p => p.2.length)).sum + 1 := by
  intro reg
  induction reg with
  | nil => simp [registryInsert]
  | cons hd rest ih =>
      obtain ⟨k, l⟩ := hd
      by_cases h : k = key
      · subst h; simp [registryInsert]; omega
      · simp [registryInsert, h, ih]; omega

theorem processRows_size (f c : String) :
    ∀ (rows : List (List String)) (reg reg' : Registry),
      processRows f c reg rows = some reg' →
      (reg'.map (fun p => p.2.length)).sum
        = (reg.map (fun p => p.2.length)).sum + rows.length := by
  intro rows
  induction rows with
  | nil =>
      intro reg reg' h
      simp only [processRows, Option.some.injEq] at h
      subst h; simp
  | cons r rest ih =>
      intro reg reg' h
      cases r with
      | nil => simp [processRows, processRow] at h
      | cons s0 tl =>
          simp only [processRows, processRow] at h
          rw [ih _ _ h, registryInsert_size]
          simp only [List.length_cons]
          omega

theorem processTables_size :
    ∀ (ts : List TableRecord) (reg reg' : Registry),
      processTables reg ts = some reg' →
      (reg'.map (fun p => p.2.length)).sum
        = (reg.map (fun p => p.2.length)).sum
          + (ts.map (fun t => t.rows.length)).sum := by
  intro ts
  induction ts with
  | nil =>
      intro reg reg' h
      simp only [processTables, Option.some.injEq] at h
      subst h; simp
  | cons t rest ih =>
      intro reg reg' h
      cases hpr : processRows t.fund t.category reg t.rows with
      | none => simp only [processTables, hpr] at h; exact Option.noConfusion h
      | some reg1 =>
          simp only [processTables, hpr] at h
          rw [ih _ _ h, processRows_size t.fund t.category t.rows reg reg1 hpr]
          simp only [List.map_cons, List.sum_cons]
          omega

theorem registryInsert_prov (key : String) (inst : ServiceInstance) :
    ∀ (reg : Registry), ∀ p ∈ registryInsert reg key inst, ∀ x ∈ p.2,
      (∃ q ∈ reg, x ∈ q.2) ∨ x = inst := by
  intro reg
  induction reg with
  | nil =>
      intro p hp x hx
      simp [registryInsert] at hp
      subst hp
      simp at hx
      exact Or.inr hx
  | cons hd rest ih =>
      intro p hp x hx
      obtain ⟨k, l⟩ := hd
      by_cases h : k = key
      · subst h
        simp [registryInsert] at hp
        rcases hp with hp | hp
        · subst hp
          rcases List.mem_append.mp hx with hx | hx
          · exact Or.inl ⟨(k, l), List.mem_cons_self _ _, hx⟩
          · exact Or.inr (List.mem_singleton.mp hx)
        · exact Or.inl ⟨p, List.mem_cons_of_mem _ hp, hx⟩
      · simp [registryInsert, h] at hp
        rcases hp with hp | hp
        · subst hp
          exact Or.inl ⟨(k, l), List.mem_cons_self _ _, hx⟩
        · rcases ih p hp x hx with ⟨q, hq, hxq⟩ | hxeq
          · exact Or.inl ⟨q, List.mem_cons_of_mem _ hq, hxq⟩
          · exact Or.inr hxeq

theorem processRows_prov (f c : String) :
    ∀ (rows : List (List String)) (reg reg' : Registry),
      processRows f c reg rows = some reg' →
      ∀ p ∈ reg', ∀ x ∈ p.2,
        (∃ q ∈ reg, x ∈ q.2) ∨ ∃ r ∈ rows, x = mkServiceInstance f c r := by
  intro rows
  induction rows with
  | nil =>
      intro reg reg' h p hp x hx
      simp only [processRows, Option.some.injEq] at h
      subst h
      exact Or.inl ⟨p, hp, hx⟩
  | cons r rest ih =>
      intro reg reg' h p hp x hx
      cases r with
      | nil => simp [processRows, processRow] at h
      | cons s0 tl =>
          simp only [processRows, processRow] at h
          rcases ih _ _ h p hp x hx with ⟨q, hq, hxq⟩ | ⟨r', hr', hxeq⟩
          · rcases registryInsert_prov (normalizeServiceName s0)
              (mkServiceInstance f c (s0 :: tl)) reg q hq x hxq with hl | hr
            · exact Or.inl hl
            · exact Or.inr ⟨s0 :: tl, List.mem_cons_self _ _, hr⟩
          · exact Or.inr ⟨r', List.mem_cons_of_mem _ hr', hxeq⟩

theorem processTables_prov :
    ∀ (ts : List TableRecord) (reg reg' : Registry),
      processTables reg ts = some reg' →
      ∀ p ∈ reg', ∀ x ∈ p.2,
        (∃ q ∈ reg, x ∈ q.2) ∨
          ∃ t ∈ ts, ∃ r ∈ t.rows, x = mkServiceInstance t.fund t.category r := by
  intro ts
  induction ts with
  | nil =>
      intro reg reg' h p hp x hx
      simp only [processTables, Option.some.injEq] at h
      subst h
      exact Or.inl ⟨p, hp, hx⟩
  | cons t rest ih =>
      intro reg reg' h p hp x hx
      cases hpr : processRows t.fund t.category reg t.rows with
      | none => simp only [processTables, hpr] at h; exact Option.noConfusion h
      | some reg1 =>
          simp only [processTables, hpr] at h
          rcases ih _ _ h p hp x hx with ⟨q, hq, hxq⟩ | ⟨t', ht', r', hr', hxeq⟩
          · rcases processRows_prov t.fund t.category t.rows reg reg1 hpr
              q hq x hxq with hl | ⟨r', hr', hxeq⟩
            · exact Or.inl hl
            · exact Or.inr ⟨t, List.mem_cons_self _ _, r', hr', hxeq⟩
          · exact Or.inr ⟨t', List.mem_cons_of_mem _ ht', r', hr', hxeq⟩

theorem registryInsert_nonempty (key : String) (inst : ServiceInstance) :
    ∀ (reg : Registry), (∀ p ∈ reg, p.2 ≠ []) →
      ∀ p ∈ registryInsert reg key inst, p.2 ≠ [] := by
  intro reg
  induction reg with
  | nil =>
      intro _ p hp
      simp [registryInsert] at hp
      subst hp; simp
  | cons hd rest ih =>
      intro hne p hp
      obtain ⟨k, l⟩ := hd
      by_cases h : k = key
      · subst h
        simp [registryInsert] at hp
        rcases hp with hp | hp
        · subst hp; simp
        · exact hne p (List.mem_cons_of_mem _ hp)
      · simp [registryInsert, h] at hp
        rcases hp with hp | hp
        · subst hp; exact hne (k, l) (List.mem_cons_self _ _)
        · exact ih (fun q hq => hne q (List.mem_cons_of_mem _ hq)) p hp

theorem processRows_nonempty (f c : String) :
    ∀ (rows : List (List String)) (reg reg' : Registry),
      processRows f c reg rows = some reg' →
      (∀ p ∈ reg, p.2 ≠ []) → ∀ p ∈ reg', p.2 ≠ [] := by
  intro rows
  induction rows with
  | nil =>
      intro reg reg' h hne
      simp only [processRows, Option.some.injEq] at h
      subst h; exact hne
  | cons r rest ih =>
      intro reg reg' h hne
      cases r with
      | nil => simp [processRows, processRow] at h
      | cons s0 tl =>
          simp only [processRows, processRow] at h
          exact ih _ _ h (registryInsert_nonempty _ _ _ hne)

theorem processTables_nonempty :
    ∀ (ts : List TableRecord) (reg reg' : Registry),
      processTables reg ts = some reg' →
      (∀ p ∈ reg, p.2 ≠ []) → ∀ p ∈ reg', p.2 ≠ [] := by
  intro ts
  induction ts with
  | nil =>
      intro reg reg' h hne
      simp only [processTables, Option.some.injEq] at h
      subst h; exact hne
  | cons t rest ih =>
      intro reg reg' h hne
      cases hpr : processRows t.fund t.category reg t.rows with
      | none => simp only [processTables, hpr] at h; exact Option.noConfusion h
      | some reg1 =>
          simp only [processTables, hpr] at h
          exact ih _ _ h (processRows_nonempty _ _ _ _ _ hpr hne)

/-- Claim C10: with every row non-empty, the registry maps every key to
a non-empty instance list, the instance counts add up to the total
number of input rows, and every instance is the untouched image of one
of the input rows (its `row_data` is that row). -/
theorem C10_registry_accounting (tables : List TableRecord) (reg : Registry)
    (h : build_service_registry tables = some reg) :
    (∀ p ∈ reg, p.2 ≠ []) ∧
    (reg.map (fun p => p.2.length)).sum
      = (tables.map (fun t => t.rows.length)).sum ∧
    (∀ p ∈ reg, ∀ inst ∈ p.2,
        ∃ t ∈ tables, ∃ r ∈ t.rows,
          inst = mkServiceInstance t.fund t.category r ∧ inst.row_data = r) := by
  refine ⟨processTables_nonempty tables [] reg h (by simp), ?_, ?_⟩
  · have hs := processTables_size tables [] reg h
    simpa using hs
  · intro p hp inst hinst
    rcases processTables_prov tables [] reg h p hp inst hinst with
      ⟨q, hq, _⟩ | ⟨t, ht, r, hr, heq⟩
    · simp at hq
    · exact ⟨t, ht, r, hr, heq, by simp [heq, mkServiceInstance]⟩

/-- Witness for C10: two rows give two singleton entries, counts 2 = 2. -/
theorem C10_registry_accounting_witness :
    ([("a", [mkServiceInstance "F" "C" ["a"]]),
      ("b", [mkServiceInstance "F" "C" ["b"]])].map
        (fun p : String × List ServiceInstance => p.2.length)).sum
      = (([{ fund := "F", category := "C", headers := ["Scope"],
             rows := [["a"], ["b"]] }] : List TableRecord).map
          (fun t => t.rows.length)).sum :=
  (C10_registry_accounting
      [{ fund := "F", category := "C", headers := ["Scope"],
         rows := [["a"], ["b"]] }]
      [("a", [mkServiceInstance "F" "C" ["a"]]),
       ("b", [mkServiceInstance "F" "C" ["b"]])]
      (by decide)).2.1
